import Mathlib

/-!
Verification of the `simplecipher` Go package: a shallow embedding of its
cipher-mode layer (CBC, the CFB/OFB/CTR stream adapter, GCM), its key
derivation (`keyGen.Bytes` and the `New*` key constructors), and its hex
string codec, together with proofs of the specification claims.

Bytes are modelled as `Nat` (with `< 256` side conditions where the hex
codec needs them), byte strings as `List Nat`.  The external primitives
(the AES block transform from `crypto/aes`, the keystream transforms from
`crypto/cipher`, the GCM seal/open pair, and `scrypt.Key`) are
parameters of the development, constrained exactly by the contracts the
Go standard library documents for them.  Fallible Go code returns
`Except`; a Go panic is a third alternative (`Outcome.panic`) that the
`recoverFromPanic` boundary converts into an error, as the source does.
-/

namespace SimpleCipher

/-- Block size of AES, `aes.BlockSize` in the source. -/
def blockSize : Nat := 16

/-- Panic payloads that the embedded code can raise; they stand for the
panic values of `cipher.NewCBCEncrypter`, `cipher.newCFB`/`NewOFB`/`NewCTR`
(IV length mismatch) and of GCM `Seal`/`Open` (nonce length mismatch). -/
inductive PanicMsg : Type
  | cbcIvSize
  | streamIvSize
  | gcmNonceSize
  deriving DecidableEq, Repr

/-- The four pkcs7 unpad error kinds of the `pkcs7` package. -/
inductive PaddingErrKind : Type
  | notFound
  | notAMultiple
  | tooLong
  | tooShort
  | notAllTheSame
  deriving DecidableEq, Repr

/-- Errors of the package: the exported `Err*` values of `interface.go`,
the raw `aes.KeySizeError`, the hex decode failure, the GCM
authentication failure, and the pkcs7 padding errors. -/
inductive CipherErr : Type
  | plaintextBlockSize
  | cipherTextTooShort
  | cipherTextBlockSize
  | panicked (m : PanicMsg)
  | copy
  | newAesCipher (keyLen : Nat)
  | keySize (keyLen : Nat)
  | decode
  | authFailed
  | padding (k : PaddingErrKind)
  deriving DecidableEq, Repr

/-- Result of a Go function body before its deferred `recover` runs:
a value, an error return, or a panic. -/
inductive Outcome (α : Type) : Type
  | ok (a : α)
  | err (e : CipherErr)
  | panic (m : PanicMsg)
  deriving DecidableEq, Repr

/-- `recoverFromPanic` of the source: at the public boundary a panic is
converted into an error wrapping `ErrPanic`; normal returns pass through. -/
def recoverFromPanic {α : Type} : Outcome α → Except CipherErr α
  | .ok a => .ok a
  | .err e => .error e
  | .panic m => .error (.panicked m)

/-- View of an `Except` value as a sum, to decide equality. -/
def exceptToSum {ε α : Type} : Except ε α → Sum ε α
  | .error e => .inl e
  | .ok a => .inr a

instance {ε α : Type} [DecidableEq ε] [DecidableEq α] :
    DecidableEq (Except ε α) := fun a b =>
  decidable_of_iff (exceptToSum a = exceptToSum b)
    (by cases a <;> cases b <;> simp [exceptToSum])

/-! ## Hex codec (`encoding.go`, `DefaultStringCodec = HexCodec`) -/

/-- One hex digit character (lowercase), as `encoding/hex` emits. -/
def hexDigit (n : Nat) : Nat :=
  if n < 10 then 48 + n else 87 + n

/-- `hex.EncodeToString`: each byte becomes two hex characters. -/
def hexEncode (bs : List Nat) : List Nat :=
  bs.flatMap (fun b => [hexDigit (b / 16), hexDigit (b % 16)])

/-- Value of a hex character, accepting `0-9`, `a-f`, `A-F` as
`encoding/hex.fromHexChar` does. -/
def hexDigitVal (c : Nat) : Option Nat :=
  if 48 ≤ c ∧ c ≤ 57 then some (c - 48)
  else if 97 ≤ c ∧ c ≤ 102 then some (c - 87)
  else if 65 ≤ c ∧ c ≤ 70 then some (c - 55)
  else none

/-- `hex.DecodeString`: fails on an odd-length input or a non-hex
character. -/
def hexDecode : List Nat → Option (List Nat)
  | [] => some []
  | [_] => none
  | c1 :: c2 :: rest =>
    match hexDigitVal c1, hexDigitVal c2, hexDecode rest with
    | some h, some l, some r => some ((16 * h + l) :: r)
    | _, _, _ => none

theorem hexDigitVal_hexDigit {n : Nat} (h : n < 16) :
    hexDigitVal (hexDigit n) = some n := by
  interval_cases n <;> decide

theorem hexDecode_hexEncode (bs : List Nat) (h : ∀ x ∈ bs, x < 256) :
    hexDecode (hexEncode bs) = some bs := by
  induction bs with
  | nil => simp [hexEncode, hexDecode]
  | cons b rest ih =>
    have hb : b < 256 := h b (List.mem_cons_self b rest)
    have hdiv : b / 16 < 16 := by omega
    have hmod : b % 16 < 16 := Nat.mod_lt _ (by norm_num)
    have hrest : hexDecode (hexEncode rest) = some rest :=
      ih (fun x hx => h x (List.mem_cons_of_mem _ hx))
    have henc : hexEncode (b :: rest) =
        hexDigit (b / 16) :: hexDigit (b % 16) :: hexEncode rest := by
      simp [hexEncode]
    rw [henc]
    simp only [hexDecode, hexDigitVal_hexDigit hdiv,
      hexDigitVal_hexDigit hmod, hrest]
    rw [Nat.div_add_mod]

/-! ## The abstract AES block primitive

`crypto/aes` is an external collaborator; the development is
parameterised over a keyed family of block transforms carrying exactly
the properties AES has: encryption and decryption are mutually inverse
16-byte-block permutations mapping bytes to bytes. -/

/-- A single block transform (one `cipher.Block` instance). -/
structure BlockPerm : Type where
  enc : List Nat → List Nat
  dec : List Nat → List Nat
  enc_len : ∀ b : List Nat, b.length = 16 → (enc b).length = 16
  enc_lt : ∀ b : List Nat, (∀ x ∈ b, x < 256) → ∀ x ∈ enc b, x < 256
  dec_enc : ∀ b : List Nat, b.length = 16 → (∀ x ∈ b, x < 256) →
    dec (enc b) = b

/-- The keyed family `aes.NewCipher` draws its transforms from. -/
def AesPrim : Type := List Nat → BlockPerm

/-- `aes.NewCipher` accepts exactly keys of 16, 24 or 32 bytes. -/
def keySizeOk (key : List Nat) : Prop :=
  key.length = 16 ∨ key.length = 24 ∨ key.length = 32

instance (key : List Nat) : Decidable (keySizeOk key) := by
  unfold keySizeOk; infer_instance

/-- XOR of two byte strings, elementwise (`subtle.XORBytes`). -/
def xorBytes (a b : List Nat) : List Nat :=
  List.zipWith (fun x y => x ^^^ y) a b

theorem xorBytes_length (a b : List Nat) :
    (xorBytes a b).length = min a.length b.length := by
  simp [xorBytes]

theorem xor_lt_256 {x y : Nat} (hx : x < 256) (hy : y < 256) :
    x ^^^ y < 256 := by
  have h : (256 : Nat) = 2 ^ 8 := by norm_num
  rw [h] at hx hy ⊢
  exact Nat.bitwise_lt_two_pow hx hy

theorem xorBytes_lt (a b : List Nat) (ha : ∀ x ∈ a, x < 256)
    (hb : ∀ x ∈ b, x < 256) : ∀ x ∈ xorBytes a b, x < 256 := by
  induction a generalizing b with
  | nil => intro x hx; simp [xorBytes] at hx
  | cons p ps ih =>
    cases b with
    | nil => intro x hx; simp [xorBytes] at hx
    | cons q qs =>
      intro x hx
      simp only [xorBytes, List.zipWith_cons_cons, List.mem_cons] at hx
      rcases hx with h | h
      · subst h
        exact xor_lt_256 (ha p (by simp)) (hb q (by simp))
      · exact ih qs (fun y hy => ha y (List.mem_cons_of_mem _ hy))
          (fun y hy => hb y (List.mem_cons_of_mem _ hy)) x h

theorem xorBytes_xorBytes_left (a b : List Nat) (h : a.length = b.length) :
    xorBytes (xorBytes a b) a = b := by
  induction a generalizing b with
  | nil => cases b with
    | nil => rfl
    | cons y ys => simp at h
  | cons x xs ih =>
    cases b with
    | nil => simp at h
    | cons y ys =>
      simp only [List.length_cons, Nat.succ_inj] at h
      simp only [xorBytes, List.zipWith_cons_cons]
      rw [show (x ^^^ y) ^^^ x = y by rw [Nat.xor_comm x y, Nat.xor_cancel_right]]
      exact congrArg (y :: ·) (ih ys h)

/-! ## CBC block chaining (`cipher.NewCBCEncrypter` / `NewCBCDecrypter`)

The CBC chaining of `crypto/cipher` over a block transform, written with
a fuel parameter so the definitions are structurally recursive (the
public entry points pass the input length as fuel, which always
suffices because each step consumes at least one byte). -/

/-- CBC encryption chaining: each plaintext block is XORed with the
previous ciphertext block (initially the IV) and then encrypted. -/
def cbcEncBlocksN (B : BlockPerm) : Nat → List Nat → List Nat → List Nat
  | 0, _, _ => []
  | fuel + 1, prev, p =>
    if p = [] then []
    else
      let c := B.enc (xorBytes prev (p.take 16))
      c ++ cbcEncBlocksN B fuel c (p.drop 16)

/-- CBC decryption chaining: each ciphertext block is decrypted and
XORed with the previous ciphertext block (initially the IV). -/
def cbcDecBlocksN (B : BlockPerm) : Nat → List Nat → List Nat → List Nat
  | 0, _, _ => []
  | fuel + 1, prev, c =>
    if c = [] then []
    else
      xorBytes (B.dec (c.take 16)) prev ++
        cbcDecBlocksN B fuel (c.take 16) (c.drop 16)

def cbcEncBlocks (B : BlockPerm) (iv p : List Nat) : List Nat :=
  cbcEncBlocksN B p.length iv p

def cbcDecBlocks (B : BlockPerm) (iv c : List Nat) : List Nat :=
  cbcDecBlocksN B c.length iv c

theorem cbcEncBlocksN_lt (B : BlockPerm) (fuel : Nat) :
    ∀ prev p : List Nat, (∀ x ∈ prev, x < 256) → (∀ x ∈ p, x < 256) →
      ∀ x ∈ cbcEncBlocksN B fuel prev p, x < 256 := by
  induction fuel with
  | zero => intro prev p _ _ x hx; simp [cbcEncBlocksN] at hx
  | succ n ih =>
    intro prev p hprev hp x hx
    by_cases hnil : p = []
    · subst hnil; simp [cbcEncBlocksN] at hx
    · simp only [cbcEncBlocksN, if_neg hnil, List.mem_append] at hx
      have hc : ∀ y ∈ B.enc (xorBytes prev (p.take 16)), y < 256 :=
        B.enc_lt _ (xorBytes_lt _ _ hprev
          (fun y hy => hp y (List.mem_of_mem_take hy)))
      rcases hx with h | h
      · exact hc x h
      · exact ih _ _ hc (fun y hy => hp y (List.mem_of_mem_drop hy)) x h

theorem cbcDecBlocksN_nil (B : BlockPerm) (fuel : Nat) (prev : List Nat) :
    cbcDecBlocksN B fuel prev [] = [] := by
  cases fuel <;> simp [cbcDecBlocksN]

/-- Core inversion of CBC chaining: given enough fuel on both sides, an
aligned byte plaintext and a 16-byte chaining value, decryption undoes
encryption. -/
theorem cbcDecN_cbcEncN (B : BlockPerm) (fuelE : Nat) :
    ∀ (fuelD : Nat) (prev p : List Nat),
      p.length ≤ fuelE →
      (cbcEncBlocksN B fuelE prev p).length ≤ fuelD →
      16 ∣ p.length →
      prev.length = 16 → (∀ x ∈ prev, x < 256) → (∀ x ∈ p, x < 256) →
      cbcDecBlocksN B fuelD prev (cbcEncBlocksN B fuelE prev p) = p := by
  induction fuelE with
  | zero =>
    intro fuelD prev p hfuel _ _ _ _ _
    have : p = [] := List.eq_nil_of_length_eq_zero (Nat.le_zero.mp hfuel)
    subst this
    simp [cbcEncBlocksN, cbcDecBlocksN_nil]
  | succ n ih =>
    intro fuelD prev p hfuelE hfuelD hdvd hprevlen hprevlt hplt
    by_cases hnil : p = []
    · subst hnil; simp [cbcEncBlocksN, cbcDecBlocksN_nil]
    · have hplen : 16 ≤ p.length := by
        rcases hdvd with ⟨k, hk⟩
        rcases Nat.eq_zero_or_pos k with h0 | h0
        · exfalso; exact hnil (List.eq_nil_of_length_eq_zero (by omega))
        · omega
      have htake_len : (p.take 16).length = 16 := by
        simp [List.length_take]; omega
      have htake_lt : ∀ x ∈ p.take 16, x < 256 :=
        fun x hx => hplt x (List.mem_of_mem_take hx)
      have hxor_len : (xorBytes prev (p.take 16)).length = 16 := by
        rw [xorBytes_length, hprevlen, htake_len]; exact Nat.min_self 16
      have hxor_lt : ∀ x ∈ xorBytes prev (p.take 16), x < 256 :=
        xorBytes_lt _ _ hprevlt htake_lt
      have hc_len : (B.enc (xorBytes prev (p.take 16))).length = 16 :=
        B.enc_len _ hxor_len
      have hc_lt : ∀ x ∈ B.enc (xorBytes prev (p.take 16)), x < 256 :=
        B.enc_lt _ hxor_lt
      set c := B.enc (xorBytes prev (p.take 16)) with hc
      set rest := cbcEncBlocksN B n c (p.drop 16) with hrest
      have henc : cbcEncBlocksN B (n + 1) prev p = c ++ rest := by
        rw [cbcEncBlocksN, if_neg hnil]
      rw [henc] at hfuelD ⊢
      have hcr_len : (c ++ rest).length = 16 + rest.length := by
        simp [List.length_append, hc_len]
      obtain ⟨m, hm⟩ : ∃ m, fuelD = m + 1 :=
        ⟨fuelD - 1, by omega⟩
      subst hm
      have hcr_ne : c ++ rest ≠ [] := by
        intro h
        rw [h] at hcr_len
        simp at hcr_len
        omega
      rw [cbcDecBlocksN, if_neg hcr_ne]
      have htake_c : (c ++ rest).take 16 = c := by
        rw [show (16 : Nat) = c.length from hc_len.symm]
        exact List.take_left c rest
      have hdrop_c : (c ++ rest).drop 16 = rest := by
        rw [show (16 : Nat) = c.length from hc_len.symm]
        exact List.drop_left c rest
      rw [htake_c, hdrop_c, hc]
      rw [B.dec_enc _ hxor_len hxor_lt]
      rw [xorBytes_xorBytes_left prev (p.take 16) (by omega)]
      have hrest_dec : cbcDecBlocksN B m c rest = p.drop 16 := by
        have := ih m c (p.drop 16) (by simp [List.length_drop]; omega)
          (by rw [← hrest]; omega)
          (by rcases hdvd with ⟨k, hk⟩
              exact ⟨k - 1, by simp only [List.length_drop]; omega⟩)
          hc_len hc_lt (fun x hx => hplt x (List.mem_of_mem_drop hx))
        rwa [← hrest] at this
      rw [← hc, hrest_dec]
      exact List.take_append_drop 16 p

theorem cbcEncBlocksN_length (B : BlockPerm) (fuel : Nat) :
    ∀ prev p : List Nat, p.length ≤ fuel → 16 ∣ p.length →
      prev.length = 16 →
      (cbcEncBlocksN B fuel prev p).length = p.length := by
  induction fuel with
  | zero =>
    intro prev p hfuel _ _
    have : p = [] := List.eq_nil_of_length_eq_zero (Nat.le_zero.mp hfuel)
    subst this
    simp [cbcEncBlocksN]
  | succ n ih =>
    intro prev p hfuel hdvd hprevlen
    by_cases hnil : p = []
    · subst hnil; simp [cbcEncBlocksN]
    · have hplen : 16 ≤ p.length := by
        rcases hdvd with ⟨k, hk⟩
        rcases Nat.eq_zero_or_pos k with h0 | h0
        · exfalso; exact hnil (List.eq_nil_of_length_eq_zero (by omega))
        · omega
      have htake_len : (p.take 16).length = 16 := by
        simp [List.length_take]; omega
      have hxor_len : (xorBytes prev (p.take 16)).length = 16 := by
        rw [xorBytes_length, hprevlen, htake_len]; exact Nat.min_self 16
      have hc_len : (B.enc (xorBytes prev (p.take 16))).length = 16 :=
        B.enc_len _ hxor_len
      rw [cbcEncBlocksN, if_neg hnil]
      simp only [List.length_append]
      rw [ih _ _ (by simp [List.length_drop]; omega)
        (by rcases hdvd with ⟨k, hk⟩
            exact ⟨k - 1, by simp only [List.length_drop]; omega⟩)
        hc_len]
      rw [hc_len]
      simp only [List.length_drop]
      omega

/-! ## The CBC string cipher (`cbc` of the source)

`cbc.Encrypt` / `cbc.Decrypt` over the abstract AES family.  The `Key`
values of the instance are modelled by the byte strings their `Bytes()`
method produces. -/

/-- The `cbc` struct: a key and an IV. -/
structure CbcInst : Type where
  key : List Nat
  iv : List Nat

/-- `NewCBC`. -/
def NewCBC (key iv : List Nat) : CbcInst := ⟨key, iv⟩

/-- Body of `cbc.Encrypt` before the deferred recover: checks the
plaintext alignment, builds the AES block (failing on a bad key
length), prepends the IV (a panic of `cipher.NewCBCEncrypter` when the
IV is not 16 bytes) and CBC-encrypts, hex-encoding the result. -/
def cbcEncryptCore (A : AesPrim) (c : CbcInst) (plainText : List Nat) :
    Outcome (List Nat) :=
  if ¬ (16 ∣ plainText.length) then .err .plaintextBlockSize
  else if ¬ keySizeOk c.key then .err (.keySize c.key.length)
  else if c.iv.length ≠ 16 then .panic .cbcIvSize
  else .ok (hexEncode (c.iv ++ cbcEncBlocks (A c.key) c.iv plainText))

/-- `cbc.Encrypt`: the core body guarded by `recoverFromPanic`. -/
def cbcEncrypt (A : AesPrim) (c : CbcInst) (plainText : List Nat) :
    Except CipherErr (List Nat) :=
  recoverFromPanic (cbcEncryptCore A c plainText)

/-- Body of `cbc.Decrypt` before the deferred recover: hex-decodes,
builds the AES block, checks the ciphertext length, then treats the
first block as the IV and CBC-decrypts the rest.  The `iv` field of the
instance is never read. -/
def cbcDecryptCore (A : AesPrim) (c : CbcInst) (cipherText : List Nat) :
    Outcome (List Nat) :=
  match hexDecode cipherText with
  | none => .err .decode
  | some ct =>
    if ¬ keySizeOk c.key then .err (.keySize c.key.length)
    else if ct.length < 16 then .err .cipherTextTooShort
    else if ¬ (16 ∣ ct.length) then .err .cipherTextBlockSize
    else .ok (cbcDecBlocks (A c.key) (ct.take 16) (ct.drop 16))

/-- `cbc.Decrypt`: the core body guarded by `recoverFromPanic`. -/
def cbcDecrypt (A : AesPrim) (c : CbcInst) (cipherText : List Nat) :
    Except CipherErr (List Nat) :=
  recoverFromPanic (cbcDecryptCore A c cipherText)

/-! ## PKCS#7 padding (`pkcs7` package) -/

/-- Modelled from the spec: the `pkcs7.Pad` implementation is not under
`src/` (only its test file is); per spec §4.7 and the tests, `Pad`
appends `blockSize - len(data) mod blockSize` bytes each holding that
count (a full block when already aligned). -/
def pkcs7Pad (n : Nat) (data : List Nat) : List Nat :=
  let k := n - data.length % n
  data ++ List.replicate k k

/-- Modelled from the spec: the `pkcs7.Unpad` implementation is not
under `src/`; per spec §4.7 and the tests it rejects an empty input,
a misaligned input, a final byte of 0 or above the block size, and
inconsistent trailing padding bytes, each with a distinct error. -/
def pkcs7Unpad (n : Nat) (data : List Nat) :
    Except PaddingErrKind (List Nat) :=
  if data.length = 0 then .error .notFound
  else if data.length % n ≠ 0 then .error .notAMultiple
  else
    let k := data.getLast?.getD 0
    if n < k then .error .tooLong
    else if k = 0 then .error .tooShort
    else if (data.drop (data.length - k)).all (fun x => x = k) then
      .ok (data.take (data.length - k))
    else .error .notAllTheSame

theorem pkcs7Pad_length_dvd (n : Nat) (hn : 0 < n) (data : List Nat) :
    n ∣ (pkcs7Pad n data).length := by
  simp only [pkcs7Pad, List.length_append, List.length_replicate]
  have h1 : data.length % n < n := Nat.mod_lt _ hn
  have h2 := Nat.div_add_mod data.length n
  refine ⟨data.length / n + 1, ?_⟩
  rw [Nat.mul_succ]
  omega

theorem pkcs7Unpad_pkcs7Pad (n : Nat) (hn : 0 < n) (data : List Nat) :
    pkcs7Unpad n (pkcs7Pad n data) = .ok data := by
  have hmod : data.length % n < n := Nat.mod_lt _ hn
  set k := n - data.length % n with hk
  have hkpos : 0 < k := by omega
  have hkn : k ≤ n := by omega
  have hpad : pkcs7Pad n data = data ++ List.replicate k k := rfl
  have hlen : (pkcs7Pad n data).length = data.length + k := by
    simp [pkcs7Pad, ← hk]
  have hlen_mod : (pkcs7Pad n data).length % n = 0 := by
    obtain ⟨c, hc⟩ := pkcs7Pad_length_dvd n hn data
    simp [hc, Nat.mul_mod_right]
  have hlen_pos : (pkcs7Pad n data).length ≠ 0 := by
    intro h
    rw [hlen] at h
    omega
  have hlast : (pkcs7Pad n data).getLast?.getD 0 = k := by
    rw [hpad]
    rcases Nat.exists_eq_add_of_lt hkpos with ⟨j, hj⟩
    have hrep : List.replicate k k = List.replicate j k ++ [k] := by
      have : k = j + 1 := by omega
      rw [this, List.replicate_succ']
    rw [hrep, ← List.append_assoc, List.getLast?_concat]
    rfl
  have hdrop : (pkcs7Pad n data).drop ((pkcs7Pad n data).length - k) =
      List.replicate k k := by
    rw [hpad]
    simp only [List.length_append, List.length_replicate]
    have h3 : data.length + k - k = data.length := by omega
    rw [h3, List.drop_left]
  have htake : (pkcs7Pad n data).take ((pkcs7Pad n data).length - k) =
      data := by
    rw [hpad]
    simp only [List.length_append, List.length_replicate]
    have h3 : data.length + k - k = data.length := by omega
    rw [h3]
    exact List.take_left data _
  rw [pkcs7Unpad]
  rw [if_neg hlen_pos, if_neg (by simp [hlen_mod])]
  simp only [hlast, hdrop, htake]
  rw [if_neg (by omega), if_neg (by omega)]
  rw [if_pos (by simp [List.all_eq_true, List.eq_of_mem_replicate])]

theorem pkcs7Pad_lt (n : Nat) (hn : n < 256) (data : List Nat)
    (h : ∀ x ∈ data, x < 256) : ∀ x ∈ pkcs7Pad n data, x < 256 := by
  intro x hx
  simp only [pkcs7Pad, List.mem_append] at hx
  rcases hx with hx | hx
  · exact h x hx
  · have := List.eq_of_mem_replicate hx
    omega

/-! ## SimpleCBC (`simpleCBC` of the source)

`SimpleCBC(keyPassphrase)` builds a `cbc` whose key is a derived
32-byte key and whose IV is a random 16-byte value drawn once at
construction; the instance is therefore modelled by an arbitrary
`CbcInst`.  Encrypt pads with PKCS#7 before `cbc.Encrypt`; Decrypt
unpads after `cbc.Decrypt`. -/

/-- Body of `simpleCBC.Encrypt`. -/
def simpleCbcEncryptCore (A : AesPrim) (c : CbcInst) (plainText : List Nat) :
    Outcome (List Nat) :=
  match cbcEncrypt A c (pkcs7Pad 16 plainText) with
  | .error e => .err e
  | .ok ct => .ok ct

/-- `simpleCBC.Encrypt`. -/
def simpleCbcEncrypt (A : AesPrim) (c : CbcInst) (plainText : List Nat) :
    Except CipherErr (List Nat) :=
  recoverFromPanic (simpleCbcEncryptCore A c plainText)

/-- Body of `simpleCBC.Decrypt`. -/
def simpleCbcDecryptCore (A : AesPrim) (c : CbcInst) (cipherText : List Nat) :
    Outcome (List Nat) :=
  match cbcDecrypt A c cipherText with
  | .error e => .err e
  | .ok padded =>
    match pkcs7Unpad 16 padded with
    | .error k => .err (.padding k)
    | .ok p => .ok p

/-- `simpleCBC.Decrypt`. -/
def simpleCbcDecrypt (A : AesPrim) (c : CbcInst) (cipherText : List Nat) :
    Except CipherErr (List Nat) :=
  recoverFromPanic (simpleCbcDecryptCore A c cipherText)

/-! ## The stream ciphers (`steam` of the source: CFB / OFB / CTR)

`crypto/cipher`'s keystream objects are external collaborators: the
development is parameterised over a family of transforms indexed by
(key, iv, direction), with the properties the library guarantees —
byte-valued output and the decrypting transform inverting the
encrypting one.  CFB uses distinct encrypt/decrypt transforms, OFB and
CTR use one for both; all three satisfy this interface, and the proofs
below hold for any such family. -/

/-- The `encryptOrDecrypt` enum of the source. -/
inductive Dir : Type
  | encrypt
  | decrypt
  deriving DecidableEq, Repr

/-- A family of keystream transforms, the denotation of a
`cipherStreamBuilder` (CFB, OFB or CTR over the AES block): `t key iv
dir` maps a byte sequence through the keystream.  The two properties
are those of `crypto/cipher`'s stream modes on byte data. -/
structure StreamPrim : Type where
  t : List Nat → List Nat → Dir → List Nat → List Nat
  t_lt : ∀ key iv d p, (∀ x ∈ p, x < 256) → ∀ x ∈ t key iv d p, x < 256
  t_dec_enc : ∀ key iv p, (∀ x ∈ p, x < 256) →
    t key iv .decrypt (t key iv .encrypt p) = p

/-- The `steam` struct: a key, an IV, and (via the `StreamPrim`
parameter of each operation) a `cipherStream` builder. -/
structure SteamInst : Type where
  key : List Nat
  iv : List Nat

/-- Body of `steam.EncryptStream`: the builder fails on a bad key
length (`ErrNewAesCipher` wrapping `aes.KeySizeError`) and panics on a
bad IV length; then the raw IV is written, followed by the transformed
plaintext. -/
def steamEncryptStreamCore (S : StreamPrim) (s : SteamInst)
    (plainText : List Nat) : Outcome (List Nat) :=
  if ¬ keySizeOk s.key then .err (.newAesCipher s.key.length)
  else if s.iv.length ≠ 16 then .panic .streamIvSize
  else .ok (s.iv ++ S.t s.key s.iv .encrypt plainText)

/-- `steam.EncryptStream`, with its deferred recover.  (The `recoverPanic`
helper it defers is not under `src/`; modelled from the spec's
panic/recover-at-every-entry-point description, identical to
`recoverFromPanic`.) -/
def steamEncryptStream (S : StreamPrim) (s : SteamInst)
    (plainText : List Nat) : Except CipherErr (List Nat) :=
  recoverFromPanic (steamEncryptStreamCore S s plainText)

/-- Body of `steam.DecryptStream`: reads exactly 16 bytes of IV
(`io.ReadFull`, an `ErrCopy`-wrapped failure when fewer are available),
then builds the transform (bad key length fails) and streams the rest
through it. -/
def steamDecryptStreamCore (S : StreamPrim) (s : SteamInst)
    (cipherText : List Nat) : Outcome (List Nat) :=
  if cipherText.length < 16 then .err .copy
  else if ¬ keySizeOk s.key then .err (.newAesCipher s.key.length)
  else .ok (S.t s.key (cipherText.take 16) .decrypt (cipherText.drop 16))

/-- `steam.DecryptStream`, with its deferred recover. -/
def steamDecryptStream (S : StreamPrim) (s : SteamInst)
    (cipherText : List Nat) : Except CipherErr (List Nat) :=
  recoverFromPanic (steamDecryptStreamCore S s cipherText)

/-! ## The stream-to-string adapter (`streamToBlock`)

`NewCFB`/`NewOFB`/`NewCTR` and their `Simple*` variants all return
`newStreamToBlock` over a `steam`; the adapter encodes with the hex
codec on encryption and decodes on decryption. -/

/-- Body of `streamToBlock.Encrypt`. -/
def streamBlockEncryptCore (S : StreamPrim) (s : SteamInst)
    (plainText : List Nat) : Outcome (List Nat) :=
  match steamEncryptStream S s plainText with
  | .error e => .err e
  | .ok ct => .ok (hexEncode ct)

/-- `streamToBlock.Encrypt`. -/
def streamBlockEncrypt (S : StreamPrim) (s : SteamInst)
    (plainText : List Nat) : Except CipherErr (List Nat) :=
  recoverFromPanic (streamBlockEncryptCore S s plainText)

/-- Body of `streamToBlock.Decrypt`. -/
def streamBlockDecryptCore (S : StreamPrim) (s : SteamInst)
    (cipherText : List Nat) : Outcome (List Nat) :=
  match hexDecode cipherText with
  | none => .err .decode
  | some ct =>
    match steamDecryptStream S s ct with
    | .error e => .err e
    | .ok p => .ok p

/-- `streamToBlock.Decrypt`. -/
def streamBlockDecrypt (S : StreamPrim) (s : SteamInst)
    (cipherText : List Nat) : Except CipherErr (List Nat) :=
  recoverFromPanic (streamBlockDecryptCore S s cipherText)

/-! ## GCM (`gcm` of the source)

`cipher.NewGCM` over the AES block is an external collaborator: the
development is parameterised over an abstract seal/open pair with the
AEAD properties the library guarantees.  `cipher.NewGCM` itself never
fails for an AES block; `Seal`/`Open` panic when the nonce is not 12
bytes, and `Open` reports an authentication error on forged input. -/

/-- Abstract AES-GCM: `seal` is total (the source calls it only after
key/nonce validation), `opn` fails on authentication errors but always
accepts what `seal` produced for the same key and nonce. -/
structure GcmPrim : Type where
  Seal : List Nat → List Nat → List Nat → List Nat
  Open : List Nat → List Nat → List Nat → Except Unit (List Nat)
  Seal_lt : ∀ key nonce p, (∀ x ∈ p, x < 256) →
    ∀ x ∈ Seal key nonce p, x < 256
  Open_Seal : ∀ key nonce p, (∀ x ∈ p, x < 256) →
    Open key nonce (Seal key nonce p) = .ok p

/-- The `gcm` struct: a key and a nonce. -/
structure GcmInst : Type where
  key : List Nat
  nonce : List Nat

/-- `NewGCM`. -/
def NewGCM (key nonce : List Nat) : GcmInst := ⟨key, nonce⟩

/-- Body of `gcm.Encrypt`: `aes.NewCipher` rejects bad key lengths,
`Seal` panics when the nonce is not 12 bytes, otherwise the sealed
bytes are hex-encoded. -/
def gcmEncryptCore (G : GcmPrim) (g : GcmInst) (plainText : List Nat) :
    Outcome (List Nat) :=
  if ¬ keySizeOk g.key then .err (.keySize g.key.length)
  else if g.nonce.length ≠ 12 then .panic .gcmNonceSize
  else .ok (hexEncode (G.Seal g.key g.nonce plainText))

/-- `gcm.Encrypt`. -/
def gcmEncrypt (G : GcmPrim) (g : GcmInst) (plainText : List Nat) :
    Except CipherErr (List Nat) :=
  recoverFromPanic (gcmEncryptCore G g plainText)

/-- Body of `gcm.Decrypt`: hex-decode, `aes.NewCipher` key check,
`Open` (a panic when the nonce is not 12 bytes, an authentication
error on forged input). -/
def gcmDecryptCore (G : GcmPrim) (g : GcmInst) (cipherText : List Nat) :
    Outcome (List Nat) :=
  match hexDecode cipherText with
  | none => .err .decode
  | some ct =>
    if ¬ keySizeOk g.key then .err (.keySize g.key.length)
    else if g.nonce.length ≠ 12 then .panic .gcmNonceSize
    else
      match G.Open g.key g.nonce ct with
      | .error _ => .err .authFailed
      | .ok p => .ok p

/-- `gcm.Decrypt`. -/
def gcmDecrypt (G : GcmPrim) (g : GcmInst) (cipherText : List Nat) :
    Except CipherErr (List Nat) :=
  recoverFromPanic (gcmDecryptCore G g cipherText)

/-! ## Key derivation (`key.go`)

`scrypt.Key` is an external collaborator (`golang.org/x/crypto`):
`keyGen.Bytes` is parameterised over it.  Like the Go function, the
parameter either returns derived bytes or fails — and on failure Go
returns a `nil` slice, which is what the assignment
`key, err := scrypt.Key(key, salt, ...)` leaves in `key`. -/

/-- The type of the `scrypt.Key` collaborator: passphrase bytes, salt
bytes and a requested length (the N=2048, r=8, p=1 cost parameters are
fixed in the source). -/
def ScryptFn : Type := List Nat → List Nat → Nat → Except Unit (List Nat)

/-- The pad-or-truncate tail of `keyGen.Bytes`: append `i % 256` for
each index `i` from the current length up to the expected length, or
truncate. -/
def padTrunc (key : List Nat) (expected : Nat) : List Nat :=
  if key.length < expected then
    key ++ (List.range' key.length (expected - key.length)).map (· % 256)
  else if expected < key.length then key.take expected
  else key

/-- `keyGen.Bytes`: clamp a negative requested length to 0, call
scrypt, return `nil` when scrypt failed and the (nil) result already
has the expected length, and otherwise pad/truncate whatever `key`
holds — the scrypt output on success, the `nil` scrypt error result on
failure (the passphrase bytes were overwritten by the assignment). -/
def keyGenBytes (scryptK : ScryptFn) (passphrase salt : List Nat)
    (len : Int) : List Nat :=
  let expected : Nat := if len < 0 then 0 else len.toNat
  match scryptK passphrase salt expected with
  | .ok key => padTrunc key expected
  | .error _ =>
    if (0 : Nat) = expected then []
    else padTrunc [] expected

theorem padTrunc_length (key : List Nat) (expected : Nat) :
    (padTrunc key expected).length = expected := by
  unfold padTrunc
  split
  · simp only [List.length_append, List.length_map, List.length_range']
    omega
  · split
    · simp only [List.length_take]
      omega
    · omega

theorem keyGenBytes_length (scryptK : ScryptFn) (passphrase salt : List Nat)
    (len : Int) :
    (keyGenBytes scryptK passphrase salt len).length = len.toNat := by
  have hexp : (if len < 0 then 0 else len.toNat) = len.toNat := by
    split
    · omega
    · rfl
  simp only [keyGenBytes, hexp]
  cases h : scryptK passphrase salt len.toNat with
  | ok key => rw [padTrunc_length]
  | error e =>
    rcases Nat.eq_zero_or_pos len.toNat with h0 | h0
    · simp [h0]
    · rw [if_neg (by omega), padTrunc_length]

/-! ### `keyGen` structs and the exported constructors -/

/-- The `keyGen` struct.  `KeyLen` is an `int` in Go, hence `Int`. -/
structure KeyGen : Type where
  passphrase : List Nat
  len : Int
  salt : List Nat

/-- The closed set of exported `KeyGenOption` values (`keyGen` is
unexported, so callers can only use these three). -/
inductive KeyGenOption : Type
  | withPassphrase (p : List Nat)
  | withSalt (s : List Nat)
  | withLen (n : Int)

/-- Application of one option.  `WithLen` itself clamps to an AES key
length at option-construction time, defaulting to `Aes256 = 32`. -/
def applyOpt (g : KeyGen) : KeyGenOption → KeyGen
  | .withPassphrase p => { g with passphrase := p }
  | .withSalt s => { g with salt := s }
  | .withLen n =>
    { g with len := if n = 16 ∨ n = 24 ∨ n = 32 then n else 32 }

/-- The process-wide `DefaultSalt` value (its default hex string, as
bytes). -/
def defaultSalt : List Nat :=
  "3c7bef42a1524af19442b1b0a5751d29".data.map Char.toNat

/-- `NewKey(passphrase, len, salt)`. -/
def NewKey (passphrase : List Nat) (len : Int) (salt : List Nat) : KeyGen :=
  ⟨passphrase, len, salt⟩

/-- `NewAesKey`: defaults to `Aes256 = 32` and `DefaultSalt()`, applies
the options, then clamps a non-AES length back to 32. -/
def NewAesKey (passphrase : List Nat) (options : List KeyGenOption) :
    KeyGen :=
  let g := options.foldl applyOpt ⟨passphrase, 32, defaultSalt⟩
  if g.len = 16 ∨ g.len = 24 ∨ g.len = 32 then g else { g with len := 32 }

/-- `NewNonce`: defaults to `NonceSize = 12` and `DefaultSalt()`,
applies the options, with no final clamp. -/
def NewNonce (passphrase : List Nat) (options : List KeyGenOption) :
    KeyGen :=
  options.foldl applyOpt ⟨passphrase, 12, defaultSalt⟩

/-- `NewIv`: defaults to `aes.BlockSize = 16` and `DefaultSalt()`,
applies the options, with no final clamp. -/
def NewIv (passphrase : List Nat) (options : List KeyGenOption) :
    KeyGen :=
  options.foldl applyOpt ⟨passphrase, 16, defaultSalt⟩

/-- `Bytes()` of a `keyGen` value. -/
def KeyGen.bytes (scryptK : ScryptFn) (g : KeyGen) : List Nat :=
  keyGenBytes scryptK g.passphrase g.salt g.len

/-! ## Concrete primitive instances (used to evaluate theorems at
concrete inputs) -/

/-- The identity block transform: a legitimate `BlockPerm`. -/
def idBlockPerm : BlockPerm where
  enc := id
  dec := id
  enc_len := fun _ h => h
  enc_lt := fun _ h => h
  dec_enc := fun _ _ _ => rfl

/-- An AES family where every key yields the identity transform. -/
def idAes : AesPrim := fun _ => idBlockPerm

/-- The identity keystream family: a legitimate `StreamPrim`. -/
def idStream : StreamPrim where
  t := fun _ _ _ p => p
  t_lt := fun _ _ _ _ h => h
  t_dec_enc := fun _ _ _ _ => rfl

/-- A trivial GCM pair: seal is the identity, open accepts. -/
def idGcm : GcmPrim where
  Seal := fun _ _ p => p
  Open := fun _ _ c => .ok c
  Seal_lt := fun _ _ _ h => h
  Open_Seal := fun _ _ _ _ => rfl

/-- A scrypt stub honouring the length contract. -/
def scryptLen : ScryptFn := fun _ _ n => .ok (List.replicate n 0)

/-- A scrypt stub that always fails (returning Go's `nil, err`). -/
def scryptFail : ScryptFn := fun _ _ _ => .error ()

/-! ## Success inversions of the encrypting entry points -/

theorem cbcEncrypt_eq_ok (A : AesPrim) (c : CbcInst) (p ct : List Nat)
    (h : cbcEncrypt A c p = .ok ct) :
    16 ∣ p.length ∧ keySizeOk c.key ∧ c.iv.length = 16 ∧
    ct = hexEncode (c.iv ++ cbcEncBlocks (A c.key) c.iv p) := by
  unfold cbcEncrypt cbcEncryptCore at h
  by_cases h1 : 16 ∣ p.length
  · by_cases h2 : keySizeOk c.key
    · by_cases h3 : c.iv.length = 16
      · refine ⟨h1, h2, h3, ?_⟩
        rw [if_neg (by simpa using h1), if_neg (by simpa using h2),
          if_neg (by simpa using h3)] at h
        simpa [recoverFromPanic] using h.symm
      · rw [if_neg (by simpa using h1), if_neg (by simpa using h2),
          if_pos h3] at h
        simp [recoverFromPanic] at h
    · rw [if_neg (by simpa using h1), if_pos (by simpa using h2)] at h
      simp [recoverFromPanic] at h
  · rw [if_pos (by simpa using h1)] at h
    simp [recoverFromPanic] at h

theorem simpleCbcEncrypt_eq_ok (A : AesPrim) (c : CbcInst) (p ct : List Nat)
    (h : simpleCbcEncrypt A c p = .ok ct) :
    cbcEncrypt A c (pkcs7Pad 16 p) = .ok ct := by
  unfold simpleCbcEncrypt simpleCbcEncryptCore at h
  cases he : cbcEncrypt A c (pkcs7Pad 16 p) with
  | error e => rw [he] at h; simp [recoverFromPanic] at h
  | ok v =>
    rw [he] at h
    simp only [recoverFromPanic] at h
    cases h
    rfl

theorem steamEncryptStream_eq_ok (S : StreamPrim) (s : SteamInst)
    (p ct : List Nat) (h : steamEncryptStream S s p = .ok ct) :
    keySizeOk s.key ∧ s.iv.length = 16 ∧
    ct = s.iv ++ S.t s.key s.iv .encrypt p := by
  unfold steamEncryptStream steamEncryptStreamCore at h
  by_cases h2 : keySizeOk s.key
  · by_cases h3 : s.iv.length = 16
    · refine ⟨h2, h3, ?_⟩
      rw [if_neg (by simpa using h2), if_neg (by simpa using h3)] at h
      simpa [recoverFromPanic] using h.symm
    · rw [if_neg (by simpa using h2), if_pos h3] at h
      simp [recoverFromPanic] at h
  · rw [if_pos (by simpa using h2)] at h
    simp [recoverFromPanic] at h

theorem streamBlockEncrypt_eq_ok (S : StreamPrim) (s : SteamInst)
    (p ct : List Nat) (h : streamBlockEncrypt S s p = .ok ct) :
    ∃ raw, steamEncryptStream S s p = .ok raw ∧ ct = hexEncode raw := by
  unfold streamBlockEncrypt streamBlockEncryptCore at h
  cases he : steamEncryptStream S s p with
  | error e => rw [he] at h; simp [recoverFromPanic] at h
  | ok v =>
    rw [he] at h
    simp only [recoverFromPanic] at h
    cases h
    exact ⟨v, rfl, rfl⟩

/-! ## Round-trip lemmas -/

theorem cbcEncrypt_ok (A : AesPrim) (key iv p : List Nat)
    (hk : keySizeOk key) (hiv : iv.length = 16) (hdvd : 16 ∣ p.length) :
    cbcEncrypt A ⟨key, iv⟩ p =
      .ok (hexEncode (iv ++ cbcEncBlocks (A key) iv p)) := by
  unfold cbcEncrypt cbcEncryptCore
  rw [if_neg (by simpa using hdvd), if_neg (by simpa using hk),
    if_neg (by simpa using hiv)]
  rfl

theorem cbcDecrypt_cbcEncBlocks (A : AesPrim) (key iv p : List Nat)
    (hk : keySizeOk key) (hiv : iv.length = 16) (hivlt : ∀ x ∈ iv, x < 256)
    (hplt : ∀ x ∈ p, x < 256) (hdvd : 16 ∣ p.length) :
    ∀ ivArg : List Nat,
      cbcDecrypt A ⟨key, ivArg⟩ (hexEncode (iv ++ cbcEncBlocks (A key) iv p)) =
        .ok p := by
  intro ivArg
  have hblt : ∀ x ∈ cbcEncBlocks (A key) iv p, x < 256 :=
    cbcEncBlocksN_lt (A key) p.length iv p hivlt hplt
  have hlt : ∀ x ∈ iv ++ cbcEncBlocks (A key) iv p, x < 256 := by
    intro x hx
    rcases List.mem_append.mp hx with h | h
    · exact hivlt x h
    · exact hblt x h
  have hdec :
      hexDecode (hexEncode (iv ++ cbcEncBlocks (A key) iv p)) =
        some (iv ++ cbcEncBlocks (A key) iv p) :=
    hexDecode_hexEncode _ hlt
  have hblen : (cbcEncBlocks (A key) iv p).length = p.length :=
    cbcEncBlocksN_length (A key) p.length iv p (Nat.le_refl _) hdvd hiv
  have hlen : (iv ++ cbcEncBlocks (A key) iv p).length = 16 + p.length := by
    simp [List.length_append, hiv, hblen]
  have htake : (iv ++ cbcEncBlocks (A key) iv p).take 16 = iv := by
    rw [show (16 : Nat) = iv.length from hiv.symm]
    exact List.take_left iv _
  have hdrop : (iv ++ cbcEncBlocks (A key) iv p).drop 16 =
      cbcEncBlocks (A key) iv p := by
    rw [show (16 : Nat) = iv.length from hiv.symm]
    exact List.drop_left iv _
  unfold cbcDecrypt cbcDecryptCore
  simp only [hdec]
  rw [if_neg (by simpa using hk),
    if_neg (by rw [hlen]; omega),
    if_neg (by rw [hlen]; simpa using Dvd.dvd.add ⟨1, rfl⟩ hdvd)]
  rw [htake, hdrop]
  unfold cbcDecBlocks cbcEncBlocks
  exact congrArg Except.ok
    (cbcDecN_cbcEncN (A key) p.length
      (cbcEncBlocksN (A key) p.length iv p).length iv p (Nat.le_refl _)
      (Nat.le_refl _) hdvd hiv hivlt hplt)

theorem streamBlockEncrypt_ok (S : StreamPrim) (key iv p : List Nat)
    (hk : keySizeOk key) (hiv : iv.length = 16) :
    streamBlockEncrypt S ⟨key, iv⟩ p =
      .ok (hexEncode (iv ++ S.t key iv .encrypt p)) := by
  unfold streamBlockEncrypt streamBlockEncryptCore steamEncryptStream
    steamEncryptStreamCore
  rw [if_neg (by simpa using hk), if_neg (by simpa using hiv)]
  rfl

theorem streamBlockDecrypt_of_encrypt (S : StreamPrim) (key iv p : List Nat)
    (hk : keySizeOk key) (hiv : iv.length = 16) (hivlt : ∀ x ∈ iv, x < 256)
    (hplt : ∀ x ∈ p, x < 256) :
    streamBlockDecrypt S ⟨key, iv⟩
      (hexEncode (iv ++ S.t key iv .encrypt p)) = .ok p := by
  have htlt : ∀ x ∈ S.t key iv .encrypt p, x < 256 :=
    S.t_lt key iv .encrypt p hplt
  have hlt : ∀ x ∈ iv ++ S.t key iv .encrypt p, x < 256 := by
    intro x hx
    rcases List.mem_append.mp hx with h | h
    · exact hivlt x h
    · exact htlt x h
  have hdec :
      hexDecode (hexEncode (iv ++ S.t key iv .encrypt p)) =
        some (iv ++ S.t key iv .encrypt p) :=
    hexDecode_hexEncode _ hlt
  have hlen : 16 ≤ (iv ++ S.t key iv .encrypt p).length := by
    simp [List.length_append, hiv]
  have htake : (iv ++ S.t key iv .encrypt p).take 16 = iv := by
    rw [show (16 : Nat) = iv.length from hiv.symm]
    exact List.take_left iv _
  have hdrop : (iv ++ S.t key iv .encrypt p).drop 16 =
      S.t key iv .encrypt p := by
    rw [show (16 : Nat) = iv.length from hiv.symm]
    exact List.drop_left iv _
  unfold streamBlockDecrypt streamBlockDecryptCore steamDecryptStream
    steamDecryptStreamCore
  simp only [hdec]
  rw [if_neg (by omega), if_neg (by simpa using hk)]
  rw [htake, hdrop, S.t_dec_enc key iv p hplt]
  rfl

theorem gcmEncrypt_ok (G : GcmPrim) (key nonce p : List Nat)
    (hk : keySizeOk key) (hnonce : nonce.length = 12) :
    gcmEncrypt G ⟨key, nonce⟩ p = .ok (hexEncode (G.Seal key nonce p)) := by
  unfold gcmEncrypt gcmEncryptCore
  rw [if_neg (by simpa using hk), if_neg (by simpa using hnonce)]
  rfl

theorem gcmDecrypt_of_encrypt (G : GcmPrim) (key nonce p : List Nat)
    (hk : keySizeOk key) (hnonce : nonce.length = 12)
    (hplt : ∀ x ∈ p, x < 256) :
    gcmDecrypt G ⟨key, nonce⟩ (hexEncode (G.Seal key nonce p)) = .ok p := by
  have hdec : hexDecode (hexEncode (G.Seal key nonce p)) =
      some (G.Seal key nonce p) :=
    hexDecode_hexEncode _ (G.Seal_lt key nonce p hplt)
  unfold gcmDecrypt gcmDecryptCore
  simp only [hdec]
  rw [if_neg (by simpa using hk), if_neg (by simpa using hnonce),
    G.Open_Seal key nonce p hplt]
  rfl

/-! ## Fixed inputs used to evaluate the theorems -/

def wKey : List Nat := List.replicate 16 0

def wIv : List Nat := List.replicate 16 1

def wNonce : List Nat := List.replicate 12 2

def wMsg : List Nat := List.replicate 32 7

/-! ## The claims -/

/-- C1: for every mode (CBC via NewCBC/SimpleCBC; CFB, OFB, CTR via the
stream-to-string adapter their New*/Simple* constructors all return;
GCM via NewGCM/SimpleGCM), every key of valid length, every 16-byte IV
(12-byte nonce for GCM), and every plaintext meeting the mode's
alignment requirement (a multiple of 16 bytes for NewCBC, arbitrary
otherwise), Decrypt (Encrypt p) on the same instance returns p with no
error.  The statement is parameterised over any block, keystream and
AEAD primitive families with the properties of `crypto/aes` and
`crypto/cipher`. -/
theorem C1_round_trip (A : AesPrim) (S : StreamPrim) (G : GcmPrim)
    (key iv nonce p : List Nat)
    (hk : keySizeOk key) (hiv : iv.length = 16) (hivlt : ∀ x ∈ iv, x < 256)
    (hnonce : nonce.length = 12) (hplt : ∀ x ∈ p, x < 256) :
    (16 ∣ p.length →
      (cbcEncrypt A (NewCBC key iv) p).bind (cbcDecrypt A (NewCBC key iv)) =
        .ok p) ∧
    ((simpleCbcEncrypt A ⟨key, iv⟩ p).bind (simpleCbcDecrypt A ⟨key, iv⟩) =
      .ok p) ∧
    ((streamBlockEncrypt S ⟨key, iv⟩ p).bind (streamBlockDecrypt S ⟨key, iv⟩) =
      .ok p) ∧
    ((gcmEncrypt G (NewGCM key nonce) p).bind (gcmDecrypt G (NewGCM key nonce)) =
      .ok p) := by
  refine ⟨?_, ?_, ?_, ?_⟩
  · intro hdvd
    rw [show NewCBC key iv = (⟨key, iv⟩ : CbcInst) from rfl]
    rw [cbcEncrypt_ok A key iv p hk hiv hdvd]
    exact cbcDecrypt_cbcEncBlocks A key iv p hk hiv hivlt hplt hdvd iv
  · have hpad_dvd := pkcs7Pad_length_dvd 16 (by norm_num) p
    have hpad_lt := pkcs7Pad_lt 16 (by norm_num) p hplt
    have hse : simpleCbcEncrypt A ⟨key, iv⟩ p =
        .ok (hexEncode (iv ++ cbcEncBlocks (A key) iv (pkcs7Pad 16 p))) := by
      unfold simpleCbcEncrypt simpleCbcEncryptCore
      rw [cbcEncrypt_ok A key iv (pkcs7Pad 16 p) hk hiv hpad_dvd]
      rfl
    rw [hse]
    show simpleCbcDecrypt A ⟨key, iv⟩ _ = .ok p
    unfold simpleCbcDecrypt simpleCbcDecryptCore
    rw [cbcDecrypt_cbcEncBlocks A key iv (pkcs7Pad 16 p) hk hiv hivlt
      hpad_lt hpad_dvd iv]
    show recoverFromPanic
        (match pkcs7Unpad 16 (pkcs7Pad 16 p) with
          | .error k => Outcome.err (CipherErr.padding k)
          | .ok q => Outcome.ok q) = Except.ok p
    rw [pkcs7Unpad_pkcs7Pad 16 (by norm_num) p]
    rfl
  · rw [streamBlockEncrypt_ok S key iv p hk hiv]
    exact streamBlockDecrypt_of_encrypt S key iv p hk hiv hivlt hplt
  · rw [show NewGCM key nonce = (⟨key, nonce⟩ : GcmInst) from rfl]
    rw [gcmEncrypt_ok G key nonce p hk hnonce]
    exact gcmDecrypt_of_encrypt G key nonce p hk hnonce hplt

/-- Evaluation of `C1_round_trip` at concrete inputs and the identity
primitive instances, discharging its hypotheses there. -/
theorem C1_round_trip_witness :
    (16 ∣ wMsg.length →
      (cbcEncrypt idAes (NewCBC wKey wIv) wMsg).bind
        (cbcDecrypt idAes (NewCBC wKey wIv)) = .ok wMsg) ∧
    ((simpleCbcEncrypt idAes ⟨wKey, wIv⟩ wMsg).bind
      (simpleCbcDecrypt idAes ⟨wKey, wIv⟩) = .ok wMsg) ∧
    ((streamBlockEncrypt idStream ⟨wKey, wIv⟩ wMsg).bind
      (streamBlockDecrypt idStream ⟨wKey, wIv⟩) = .ok wMsg) ∧
    ((gcmEncrypt idGcm (NewGCM wKey wNonce) wMsg).bind
      (gcmDecrypt idGcm (NewGCM wKey wNonce)) = .ok wMsg) :=
  C1_round_trip idAes idStream idGcm wKey wIv wNonce wMsg
    (by decide) (by decide) (by decide) (by decide) (by decide)

theorem padTrunc_zero (k : List Nat) : padTrunc k 0 = [] := by
  unfold padTrunc
  rcases Nat.eq_zero_or_pos k.length with h | h
  · rw [if_neg (by omega), if_neg (by omega)]
    exact List.eq_nil_of_length_eq_zero h
  · rw [if_neg (by omega), if_pos h]
    exact List.take_zero k

theorem keyGenBytes_nonpos (scryptK : ScryptFn) (pass salt : List Nat)
    (n : Int) (hn : n ≤ 0) : keyGenBytes scryptK pass salt n = [] := by
  have hexp : (if n < 0 then 0 else n.toNat) = 0 := by
    split
    · rfl
    · omega
  simp only [keyGenBytes, hexp]
  cases h : scryptK pass salt 0 with
  | ok k => exact padTrunc_zero k
  | error e => simp

/-- C2: the key derivation behind NewKey/NewAesKey/NewNonce/NewIv
(`keyGen.Bytes`) is deterministic — it is a pure function of the
passphrase, salt and requested length (and of the scrypt collaborator)
— returns exactly `max(n, 0)` bytes, and returns the empty byte
sequence for every `n ≤ 0`. -/
theorem C2_derivation_contract (scryptK : ScryptFn) (pass salt : List Nat)
    (n : Int) :
    keyGenBytes scryptK pass salt n = keyGenBytes scryptK pass salt n ∧
    (keyGenBytes scryptK pass salt n).length = (max n 0).toNat ∧
    (n ≤ 0 → keyGenBytes scryptK pass salt n = []) := by
  refine ⟨rfl, ?_, keyGenBytes_nonpos scryptK pass salt n⟩
  rw [keyGenBytes_length]
  omega

/-- Evaluation of `C2_derivation_contract` at concrete inputs,
discharging the `n ≤ 0` hypothesis at `n = -1`. -/
theorem C2_derivation_contract_witness :
    (keyGenBytes scryptLen [104] [115] 16).length = (max (16 : Int) 0).toNat ∧
    keyGenBytes scryptLen [104] [115] (-1) = [] :=
  ⟨(C2_derivation_contract scryptLen [104] [115] 16).2.1,
   (C2_derivation_contract scryptLen [104] [115] (-1)).2.2 (by decide)⟩

/-- C3: every public Encrypt/Decrypt/EncryptStream/DecryptStream entry
point is a total function returning a result-or-error value, and the
`recoverFromPanic` boundary converts any panic of the underlying body
into an error wrapping `ErrPanic`: whenever a core body panics, the
public entry point returns that panic as an error. -/
theorem C3_panic_recovery :
    (∀ (A : AesPrim) (c : CbcInst) (p : List Nat) (m : PanicMsg),
      cbcEncryptCore A c p = .panic m →
      cbcEncrypt A c p = .error (.panicked m)) ∧
    (∀ (A : AesPrim) (c : CbcInst) (ct : List Nat) (m : PanicMsg),
      cbcDecryptCore A c ct = .panic m →
      cbcDecrypt A c ct = .error (.panicked m)) ∧
    (∀ (A : AesPrim) (c : CbcInst) (p : List Nat) (m : PanicMsg),
      simpleCbcEncryptCore A c p = .panic m →
      simpleCbcEncrypt A c p = .error (.panicked m)) ∧
    (∀ (A : AesPrim) (c : CbcInst) (ct : List Nat) (m : PanicMsg),
      simpleCbcDecryptCore A c ct = .panic m →
      simpleCbcDecrypt A c ct = .error (.panicked m)) ∧
    (∀ (S : StreamPrim) (s : SteamInst) (p : List Nat) (m : PanicMsg),
      steamEncryptStreamCore S s p = .panic m →
      steamEncryptStream S s p = .error (.panicked m)) ∧
    (∀ (S : StreamPrim) (s : SteamInst) (ct : List Nat) (m : PanicMsg),
      steamDecryptStreamCore S s ct = .panic m →
      steamDecryptStream S s ct = .error (.panicked m)) ∧
    (∀ (S : StreamPrim) (s : SteamInst) (p : List Nat) (m : PanicMsg),
      streamBlockEncryptCore S s p = .panic m →
      streamBlockEncrypt S s p = .error (.panicked m)) ∧
    (∀ (S : StreamPrim) (s : SteamInst) (ct : List Nat) (m : PanicMsg),
      streamBlockDecryptCore S s ct = .panic m →
      streamBlockDecrypt S s ct = .error (.panicked m)) ∧
    (∀ (G : GcmPrim) (g : GcmInst) (p : List Nat) (m : PanicMsg),
      gcmEncryptCore G g p = .panic m →
      gcmEncrypt G g p = .error (.panicked m)) ∧
    (∀ (G : GcmPrim) (g : GcmInst) (ct : List Nat) (m : PanicMsg),
      gcmDecryptCore G g ct = .panic m →
      gcmDecrypt G g ct = .error (.panicked m)) := by
  refine ⟨?_, ?_, ?_, ?_, ?_, ?_, ?_, ?_, ?_, ?_⟩ <;>
    intro _ _ _ m h <;>
    first
    | (unfold cbcEncrypt; rw [h]; rfl)
    | (unfold cbcDecrypt; rw [h]; rfl)
    | (unfold simpleCbcEncrypt; rw [h]; rfl)
    | (unfold simpleCbcDecrypt; rw [h]; rfl)
    | (unfold steamEncryptStream; rw [h]; rfl)
    | (unfold steamDecryptStream; rw [h]; rfl)
    | (unfold streamBlockEncrypt; rw [h]; rfl)
    | (unfold streamBlockDecrypt; rw [h]; rfl)
    | (unfold gcmEncrypt; rw [h]; rfl)
    | (unfold gcmDecrypt; rw [h]; rfl)

/-- Evaluation of `C3_panic_recovery` at a concrete input that panics:
a CBC encryption with an empty IV (a `cipher.NewCBCEncrypter` panic)
comes back as an `ErrPanic`-wrapped error. -/
theorem C3_panic_recovery_witness :
    cbcEncrypt idAes ⟨wKey, []⟩ [] = .error (.panicked .cbcIvSize) :=
  C3_panic_recovery.1 idAes ⟨wKey, []⟩ [] .cbcIvSize (by decide)

/-- C4: CBC Encrypt returns ErrPlaintextBlockSize whenever the
plaintext length is not a multiple of 16 bytes (whatever the key); CBC
Decrypt, on a decodable ciphertext with a valid key, returns
ErrCipherTextTooShort when the decoded bytes are fewer than 16 and
ErrCipherTextBlockSize when at least 16 but not a multiple of 16; in
each case the result is an error, so no ciphertext/plaintext value is
produced. -/
theorem C4_cbc_error_returns :
    (∀ (A : AesPrim) (c : CbcInst) (p : List Nat), ¬ (16 ∣ p.length) →
      cbcEncrypt A c p = .error .plaintextBlockSize) ∧
    (∀ (A : AesPrim) (c : CbcInst) (ct d : List Nat),
      hexDecode ct = some d → keySizeOk c.key → d.length < 16 →
      cbcDecrypt A c ct = .error .cipherTextTooShort) ∧
    (∀ (A : AesPrim) (c : CbcInst) (ct d : List Nat),
      hexDecode ct = some d → keySizeOk c.key → 16 ≤ d.length →
      ¬ (16 ∣ d.length) →
      cbcDecrypt A c ct = .error .cipherTextBlockSize) := by
  refine ⟨?_, ?_, ?_⟩
  · intro A c p h
    unfold cbcEncrypt cbcEncryptCore
    rw [if_pos (by simpa using h)]
    rfl
  · intro A c ct d hdec hk hlt
    unfold cbcDecrypt cbcDecryptCore
    simp only [hdec]
    rw [if_neg (by simpa using hk), if_pos hlt]
    rfl
  · intro A c ct d hdec hk hge hndvd
    unfold cbcDecrypt cbcDecryptCore
    simp only [hdec]
    rw [if_neg (by simpa using hk), if_neg (by omega),
      if_pos (by simpa using hndvd)]
    rfl

/-- Evaluation of `C4_cbc_error_returns` at concrete inputs: a 1-byte
plaintext, a 1-byte decoded ciphertext, and a 17-byte decoded
ciphertext. -/
theorem C4_cbc_error_returns_witness :
    cbcEncrypt idAes ⟨wKey, wIv⟩ [5] = .error .plaintextBlockSize ∧
    cbcDecrypt idAes ⟨wKey, wIv⟩ (hexEncode [9]) =
      .error .cipherTextTooShort ∧
    cbcDecrypt idAes ⟨wKey, wIv⟩ (hexEncode (List.replicate 17 0)) =
      .error .cipherTextBlockSize :=
  ⟨C4_cbc_error_returns.1 idAes ⟨wKey, wIv⟩ [5] (by decide),
   C4_cbc_error_returns.2.1 idAes ⟨wKey, wIv⟩ (hexEncode [9]) [9]
     (by decide) (by decide) (by decide),
   C4_cbc_error_returns.2.2 idAes ⟨wKey, wIv⟩
     (hexEncode (List.replicate 17 0)) (List.replicate 17 0)
     (by decide) (by decide) (by decide) (by decide)⟩

/-- C5: for every valid key and decodable, well-sized ciphertext, CBC
instances built with different IVs decrypt identically — decryption
reads only the first 16 decoded bytes as the IV and never the
instance's own `iv` field. -/
theorem C5_decrypt_ignores_iv (A : AesPrim) (key iv1 iv2 ct d : List Nat)
    (hk : keySizeOk key) (hdec : hexDecode ct = some d)
    (hge : 16 ≤ d.length) (hdvd : 16 ∣ d.length) :
    cbcDecrypt A (NewCBC key iv1) ct = cbcDecrypt A (NewCBC key iv2) ct ∧
    cbcDecrypt A (NewCBC key iv1) ct =
      .ok (cbcDecBlocks (A key) (d.take 16) (d.drop 16)) := by
  constructor
  · rfl
  · unfold cbcDecrypt cbcDecryptCore NewCBC
    simp only [hdec]
    rw [if_neg (by simpa using hk), if_neg (by omega),
      if_neg (by simpa using hdvd)]
    rfl

/-- Evaluation of `C5_decrypt_ignores_iv` at a concrete ciphertext and
two different IVs. -/
theorem C5_decrypt_ignores_iv_witness :
    (cbcDecrypt idAes (NewCBC wKey [3]) (hexEncode wMsg) =
      cbcDecrypt idAes (NewCBC wKey [4]) (hexEncode wMsg)) ∧
    cbcDecrypt idAes (NewCBC wKey [3]) (hexEncode wMsg) =
      .ok (cbcDecBlocks (idAes wKey) (wMsg.take 16) (wMsg.drop 16)) :=
  C5_decrypt_ignores_iv idAes wKey [3] [4] (hexEncode wMsg) wMsg
    (by decide) (by decide) (by decide) (by decide)

/-- C6 counterexample: a 24-byte key (neither 16 nor 32 bytes) with a
12-byte nonce makes GCM Encrypt succeed — `aes.NewCipher` also accepts
AES-192 keys, as the package's own fuzz test (`FuzzNewGCM`) expects —
refuting "succeed only when the key is 16 or 32 bytes long". -/
theorem C6_counterexample :
    gcmEncrypt idGcm (NewGCM (List.replicate 24 0) wNonce) [] = .ok [] ∧
    (List.replicate 24 0 : List Nat).length ≠ 16 ∧
    (List.replicate 24 0 : List Nat).length ≠ 32 := by
  decide

/-- C6 (amended): GCM Encrypt and Decrypt succeed only when the key is
16, 24 or 32 bytes and the nonce exactly 12 bytes; any other key
length yields the key-size error and, with a valid key, any other
nonce length yields an `ErrPanic`-wrapped error (the `Seal`/`Open`
panic); with a valid key and nonce, Encrypt succeeds. -/
theorem C6_gcm_validation :
    (∀ (G : GcmPrim) (g : GcmInst) (p : List Nat), ¬ keySizeOk g.key →
      gcmEncrypt G g p = .error (.keySize g.key.length)) ∧
    (∀ (G : GcmPrim) (g : GcmInst) (p : List Nat), keySizeOk g.key →
      g.nonce.length ≠ 12 →
      gcmEncrypt G g p = .error (.panicked .gcmNonceSize)) ∧
    (∀ (G : GcmPrim) (g : GcmInst) (p : List Nat), keySizeOk g.key →
      g.nonce.length = 12 →
      gcmEncrypt G g p = .ok (hexEncode (G.Seal g.key g.nonce p))) ∧
    (∀ (G : GcmPrim) (g : GcmInst) (ct d : List Nat),
      hexDecode ct = some d → ¬ keySizeOk g.key →
      gcmDecrypt G g ct = .error (.keySize g.key.length)) ∧
    (∀ (G : GcmPrim) (g : GcmInst) (ct d : List Nat),
      hexDecode ct = some d → keySizeOk g.key → g.nonce.length ≠ 12 →
      gcmDecrypt G g ct = .error (.panicked .gcmNonceSize)) := by
  refine ⟨?_, ?_, ?_, ?_, ?_⟩
  · intro G g p h
    unfold gcmEncrypt gcmEncryptCore
    rw [if_pos (by simpa using h)]
    rfl
  · intro G g p hk hn
    unfold gcmEncrypt gcmEncryptCore
    rw [if_neg (by simpa using hk), if_pos hn]
    rfl
  · intro G g p hk hn
    unfold gcmEncrypt gcmEncryptCore
    rw [if_neg (by simpa using hk), if_neg (by simpa using hn)]
    rfl
  · intro G g ct d hdec h
    unfold gcmDecrypt gcmDecryptCore
    simp only [hdec]
    rw [if_pos (by simpa using h)]
    rfl
  · intro G g ct d hdec hk hn
    unfold gcmDecrypt gcmDecryptCore
    simp only [hdec]
    rw [if_neg (by simpa using hk), if_pos hn]
    rfl

/-- Evaluation of `C6_gcm_validation` at concrete inputs: an empty
key, an empty nonce, and a valid key/nonce pair. -/
theorem C6_gcm_validation_witness :
    gcmEncrypt idGcm ⟨[], wNonce⟩ [] = .error (.keySize 0) ∧
    gcmEncrypt idGcm ⟨wKey, []⟩ [] = .error (.panicked .gcmNonceSize) ∧
    gcmEncrypt idGcm ⟨wKey, wNonce⟩ [3] =
      .ok (hexEncode (idGcm.Seal wKey wNonce [3])) ∧
    gcmDecrypt idGcm ⟨[], wNonce⟩ [] = .error (.keySize 0) ∧
    gcmDecrypt idGcm ⟨wKey, []⟩ [] = .error (.panicked .gcmNonceSize) :=
  ⟨C6_gcm_validation.1 idGcm ⟨[], wNonce⟩ [] (by decide),
   C6_gcm_validation.2.1 idGcm ⟨wKey, []⟩ [] (by decide) (by decide),
   C6_gcm_validation.2.2.1 idGcm ⟨wKey, wNonce⟩ [3] (by decide) (by decide),
   C6_gcm_validation.2.2.2.1 idGcm ⟨[], wNonce⟩ [] [] rfl (by decide),
   C6_gcm_validation.2.2.2.2 idGcm ⟨wKey, []⟩ [] [] rfl (by decide)
     (by decide)⟩

theorem simpleCbc_first_block (A : AesPrim) (c : CbcInst) (p ct : List Nat)
    (hivlt : ∀ x ∈ c.iv, x < 256) (hplt : ∀ x ∈ p, x < 256)
    (h : simpleCbcEncrypt A c p = .ok ct) :
    (hexDecode ct).map (fun l => l.take 16) = some c.iv := by
  have h2 := simpleCbcEncrypt_eq_ok A c p ct h
  obtain ⟨hdvd, hk, hiv, hct⟩ := cbcEncrypt_eq_ok A c (pkcs7Pad 16 p) ct h2
  have hpad_lt := pkcs7Pad_lt 16 (by norm_num) p hplt
  have hblt : ∀ x ∈ cbcEncBlocks (A c.key) c.iv (pkcs7Pad 16 p), x < 256 :=
    cbcEncBlocksN_lt (A c.key) _ c.iv _ hivlt hpad_lt
  have hlt : ∀ x ∈ c.iv ++ cbcEncBlocks (A c.key) c.iv (pkcs7Pad 16 p),
      x < 256 := by
    intro x hx
    rcases List.mem_append.mp hx with hx | hx
    · exact hivlt x hx
    · exact hblt x hx
  rw [hct, hexDecode_hexEncode _ hlt]
  simp only [Option.map_some']
  rw [show (16 : Nat) = c.iv.length from hiv.symm, List.take_left]

theorem stream_first_block (S : StreamPrim) (s : SteamInst) (p ct : List Nat)
    (hivlt : ∀ x ∈ s.iv, x < 256) (hplt : ∀ x ∈ p, x < 256)
    (h : streamBlockEncrypt S s p = .ok ct) :
    (hexDecode ct).map (fun l => l.take 16) = some s.iv := by
  obtain ⟨raw, hraw, hct⟩ := streamBlockEncrypt_eq_ok S s p ct h
  obtain ⟨hk, hiv, hrw⟩ := steamEncryptStream_eq_ok S s p raw hraw
  have htlt : ∀ x ∈ S.t s.key s.iv .encrypt p, x < 256 :=
    S.t_lt s.key s.iv .encrypt p hplt
  have hlt : ∀ x ∈ s.iv ++ S.t s.key s.iv .encrypt p, x < 256 := by
    intro x hx
    rcases List.mem_append.mp hx with hx | hx
    · exact hivlt x hx
    · exact htlt x hx
  rw [hct, hrw, hexDecode_hexEncode _ hlt]
  simp only [Option.map_some']
  rw [show (16 : Nat) = s.iv.length from hiv.symm, List.take_left]

/-- C7: a "simple"-constructed instance fixes its random IV once at
construction (it is a field of the instance, not resampled per call):
any two successful Encrypt calls on the same instance emit ciphertexts
whose first 16 decoded bytes are both exactly the instance's IV —
hence identical; likewise for the raw stream API, whose output starts
with the instance's raw IV. -/
theorem C7_iv_fixed_per_instance :
    (∀ (A : AesPrim) (c : CbcInst) (p1 p2 c1 c2 : List Nat),
      (∀ x ∈ c.iv, x < 256) →
      (∀ x ∈ p1, x < 256) → (∀ x ∈ p2, x < 256) →
      simpleCbcEncrypt A c p1 = .ok c1 →
      simpleCbcEncrypt A c p2 = .ok c2 →
      (hexDecode c1).map (fun l => l.take 16) = some c.iv ∧
      (hexDecode c2).map (fun l => l.take 16) = some c.iv) ∧
    (∀ (S : StreamPrim) (s : SteamInst) (p1 p2 c1 c2 : List Nat),
      (∀ x ∈ s.iv, x < 256) →
      (∀ x ∈ p1, x < 256) → (∀ x ∈ p2, x < 256) →
      streamBlockEncrypt S s p1 = .ok c1 →
      streamBlockEncrypt S s p2 = .ok c2 →
      (hexDecode c1).map (fun l => l.take 16) = some s.iv ∧
      (hexDecode c2).map (fun l => l.take 16) = some s.iv) ∧
    (∀ (S : StreamPrim) (s : SteamInst) (p c' : List Nat),
      steamEncryptStream S s p = .ok c' → c'.take 16 = s.iv) := by
  refine ⟨?_, ?_, ?_⟩
  · intro A c p1 p2 c1 c2 hivlt hp1 hp2 h1 h2
    exact ⟨simpleCbc_first_block A c p1 c1 hivlt hp1 h1,
      simpleCbc_first_block A c p2 c2 hivlt hp2 h2⟩
  · intro S s p1 p2 c1 c2 hivlt hp1 hp2 h1 h2
    exact ⟨stream_first_block S s p1 c1 hivlt hp1 h1,
      stream_first_block S s p2 c2 hivlt hp2 h2⟩
  · intro S s p c' h
    obtain ⟨hk, hiv, hrw⟩ := steamEncryptStream_eq_ok S s p c' h
    rw [hrw, show (16 : Nat) = s.iv.length from hiv.symm, List.take_left]

def wC1cbc : List Nat :=
  (simpleCbcEncrypt idAes ⟨wKey, wIv⟩ []).toOption.getD []

def wC2cbc : List Nat :=
  (simpleCbcEncrypt idAes ⟨wKey, wIv⟩ [7]).toOption.getD []

def wC1str : List Nat :=
  (streamBlockEncrypt idStream ⟨wKey, wIv⟩ []).toOption.getD []

def wC2str : List Nat :=
  (streamBlockEncrypt idStream ⟨wKey, wIv⟩ [7]).toOption.getD []

def wCsteam : List Nat :=
  (steamEncryptStream idStream ⟨wKey, wIv⟩ [7]).toOption.getD []

/-- Evaluation of `C7_iv_fixed_per_instance` on one instance per API,
each encrypting two different plaintexts. -/
theorem C7_iv_fixed_per_instance_witness :
    ((hexDecode wC1cbc).map (fun l => l.take 16) = some wIv ∧
     (hexDecode wC2cbc).map (fun l => l.take 16) = some wIv) ∧
    ((hexDecode wC1str).map (fun l => l.take 16) = some wIv ∧
     (hexDecode wC2str).map (fun l => l.take 16) = some wIv) ∧
    wCsteam.take 16 = wIv :=
  ⟨C7_iv_fixed_per_instance.1 idAes ⟨wKey, wIv⟩ [] [7] wC1cbc wC2cbc
     (by decide) (by decide) (by decide) (by decide) (by decide),
   C7_iv_fixed_per_instance.2.1 idStream ⟨wKey, wIv⟩ [] [7] wC1str wC2str
     (by decide) (by decide) (by decide) (by decide) (by decide),
   C7_iv_fixed_per_instance.2.2 idStream ⟨wKey, wIv⟩ [7] wCsteam
     (by decide)⟩

/-- C8 (code bug): when scrypt fails, `keyGen.Bytes` pads or truncates
the `nil` slice that `scrypt.Key` returned — the assignment
`key, err := scrypt.Key(key, ...)` has already overwritten the
passphrase bytes — so for passphrase "ab" and requested length 4 the
result is `[0,1,2,3]`, not the passphrase-prefixed `[97,98,2,3]` the
spec and the code's own comment ("use the Passphrase key") describe;
and for a 5-byte passphrase and length 3 the result is `[0,1,2]`, not
the truncated passphrase. -/
theorem C8_fallback_pads_nil :
    keyGenBytes scryptFail [97, 98] [115] 4 = [0, 1, 2, 3] ∧
    keyGenBytes scryptFail [97, 98] [115] 4 ≠ [97, 98, 2, 3] ∧
    keyGenBytes scryptFail [97, 98, 99, 100, 101] [115] 3 = [0, 1, 2] ∧
    keyGenBytes scryptFail [97, 98, 99, 100, 101] [115] 3 ≠ [97, 98, 99] := by
  decide

/-- C9 counterexample: `WithLen` itself clamps to an AES length for
every caller, so `NewNonce(pass, WithLen(5))` derives 32 bytes, not
5. -/
theorem C9_counterexample :
    (NewNonce [120] [.withLen 5]).len = 32 ∧
    ((NewNonce [120] [.withLen 5]).bytes scryptLen).length = 32 ∧
    (5 : Int) ≠ 32 := by
  refine ⟨rfl, ?_, by decide⟩
  show (keyGenBytes scryptLen _ _ _).length = 32
  rw [keyGenBytes_length]
  rfl

/-- C9 (amended): NewAesKey always yields a length in {16,24,32}
(clamping any other requested length to 32); NewKey honours an
arbitrary non-negative length exactly; but the clamp lives in the
WithLen option itself, so a WithLen(n) passed to NewNonce/NewIv also
yields n only for n in {16,24,32} and 32 otherwise; without a length
option NewNonce and NewIv yield 12 and 16 bytes. -/
theorem C9_len_clamping :
    (∀ (pass : List Nat) (opts : List KeyGenOption),
      (NewAesKey pass opts).len = 16 ∨ (NewAesKey pass opts).len = 24 ∨
      (NewAesKey pass opts).len = 32) ∧
    (∀ (scryptK : ScryptFn) (pass salt : List Nat) (n : Int), 0 ≤ n →
      ((NewKey pass n salt).bytes scryptK).length = n.toNat) ∧
    (∀ (pass : List Nat) (n : Int), (n = 16 ∨ n = 24 ∨ n = 32) →
      (NewNonce pass [.withLen n]).len = n ∧
      (NewIv pass [.withLen n]).len = n) ∧
    (∀ (pass : List Nat) (n : Int), ¬ (n = 16 ∨ n = 24 ∨ n = 32) →
      (NewNonce pass [.withLen n]).len = 32 ∧
      (NewIv pass [.withLen n]).len = 32) ∧
    (∀ pass : List Nat,
      (NewNonce pass []).len = 12 ∧ (NewIv pass []).len = 16) := by
  refine ⟨?_, ?_, ?_, ?_, ?_⟩
  · intro pass opts
    simp only [NewAesKey]
    split
    · rename_i h
      exact h
    · right; right; rfl
  · intro scryptK pass salt n _
    exact keyGenBytes_length scryptK pass salt n
  · intro pass n h
    constructor
    · show (if n = 16 ∨ n = 24 ∨ n = 32 then n else 32) = n
      rw [if_pos h]
    · show (if n = 16 ∨ n = 24 ∨ n = 32 then n else 32) = n
      rw [if_pos h]
  · intro pass n h
    constructor
    · show (if n = 16 ∨ n = 24 ∨ n = 32 then n else 32) = 32
      rw [if_neg h]
    · show (if n = 16 ∨ n = 24 ∨ n = 32 then n else 32) = 32
      rw [if_neg h]
  · intro pass
    exact ⟨rfl, rfl⟩

/-- Evaluation of `C9_len_clamping` at concrete inputs, discharging
each hypothesis there. -/
theorem C9_len_clamping_witness :
    ((NewAesKey [107] [.withLen 5]).len = 16 ∨
     (NewAesKey [107] [.withLen 5]).len = 24 ∨
     (NewAesKey [107] [.withLen 5]).len = 32) ∧
    ((NewKey [107] 7 [115]).bytes scryptLen).length = (7 : Int).toNat ∧
    ((NewNonce [107] [.withLen 16]).len = 16 ∧
     (NewIv [107] [.withLen 16]).len = 16) ∧
    ((NewNonce [107] [.withLen 5]).len = 32 ∧
     (NewIv [107] [.withLen 5]).len = 32) ∧
    ((NewNonce [107] []).len = 12 ∧ (NewIv [107] []).len = 16) :=
  ⟨C9_len_clamping.1 [107] [.withLen 5],
   C9_len_clamping.2.1 scryptLen [107] [115] 7 (by decide),
   C9_len_clamping.2.2.1 [107] 16 (by decide),
   C9_len_clamping.2.2.2.1 [107] 5 (by decide),
   C9_len_clamping.2.2.2.2 [107]⟩

/-- C10: for the string-API ciphers built over the stream adapter,
Decrypt of any ciphertext whose decoded form is shorter than 16 bytes
— including the empty string, which decodes to the empty byte sequence
— returns the `ErrCopy`-wrapped error from the failed IV read, never a
plaintext. -/
theorem C10_short_ciphertext_copy_error :
    (∀ (S : StreamPrim) (s : SteamInst) (ct d : List Nat),
      hexDecode ct = some d → d.length < 16 →
      streamBlockDecrypt S s ct = .error .copy) ∧
    (∀ (S : StreamPrim) (s : SteamInst),
      streamBlockDecrypt S s [] = .error .copy) := by
  constructor
  · intro S s ct d hdec hlt
    unfold streamBlockDecrypt streamBlockDecryptCore steamDecryptStream
      steamDecryptStreamCore
    simp only [hdec]
    rw [if_pos hlt]
    rfl
  · intro S s
    have hdec : hexDecode ([] : List Nat) = some [] := rfl
    unfold streamBlockDecrypt streamBlockDecryptCore steamDecryptStream
      steamDecryptStreamCore
    simp only [hdec]
    rw [if_pos (by decide)]
    rfl

/-- Evaluation of `C10_short_ciphertext_copy_error` at a 2-byte
decoded ciphertext and at the empty string. -/
theorem C10_short_ciphertext_copy_error_witness :
    streamBlockDecrypt idStream ⟨wKey, wIv⟩ (hexEncode [1, 2]) =
      .error .copy ∧
    streamBlockDecrypt idStream ⟨wKey, wIv⟩ [] = .error .copy :=
  ⟨C10_short_ciphertext_copy_error.1 idStream ⟨wKey, wIv⟩
     (hexEncode [1, 2]) [1, 2] (by decide) (by decide),
   C10_short_ciphertext_copy_error.2 idStream ⟨wKey, wIv⟩⟩

end SimpleCipher
